import Mathlib

/-!
Verification of the click-extra terminal-styling core (`click_extra/colorize.py`).

Strings are embedded as `List Char` (Python strings are immutable character
sequences).  Stateful pieces (the click `Context`) are passed explicitly.  The
`regex`/`re` engines and `boltons.strutils` range helpers are external
collaborators; the fragments of their behaviour that the code exercises are
embedded directly:

* `re3.finditer(part, string, overlapped=True)` in `highlight` passes `part`
  through unescaped, so `part` is a pattern; the pattern fragment reachable
  from the code's call sites is literal characters plus the `.` wildcard,
  embedded in `reCharMatches`/`matchesAt` below.
* `int_ranges_from_int_list` / `complement_int_list` turn a set of flagged
  character indices into maximal runs of consecutive integers (the string
  round-trip through `"start-end"` tokens is embedded at the level of the
  index sets it denotes); `runsOf` computes those maximal runs.
-/

namespace ClickExtra

/-- Python strings are finite character sequences. -/
abbrev Str := List Char

/-! ### Stable insertion sort (Python's `sorted`, which is a stable sort) -/

/-- Insert `x` into `l` before the first element `y` with `le x y`.
Together with `sortLe` this is a stable sort, like Python's `sorted`. -/
def insertLe (le : α → α → Bool) (x : α) : List α → List α
  | [] => [x]
  | y :: ys => if le x y then x :: y :: ys else y :: insertLe le x ys

/-- Stable insertion sort by the boolean relation `le`. -/
def sortLe (le : α → α → Bool) (l : List α) : List α :=
  l.foldr (insertLe le) []

theorem insertLe_perm (le : α → α → Bool) (x : α) (l : List α) :
    List.Perm (insertLe le x l) (x :: l) := by
  induction l with
  | nil => simp [insertLe]
  | cons y ys ih =>
    rw [insertLe]
    by_cases h : le x y = true
    · simp [h]
    · simp only [h, if_false]
      exact List.Perm.trans (ih.cons y) (List.Perm.swap x y ys)

theorem sortLe_perm (le : α → α → Bool) (l : List α) : List.Perm (sortLe le l) l := by
  induction l with
  | nil => simp [sortLe]
  | cons x xs ih =>
    exact List.Perm.trans (insertLe_perm le x (sortLe le xs)) (ih.cons x)

theorem mem_insertLe (le : α → α → Bool) (x : α) (l : List α) (a : α) :
    a ∈ insertLe le x l ↔ a = x ∨ a ∈ l := by
  rw [(insertLe_perm le x l).mem_iff, List.mem_cons]

theorem pairwise_insertLe (le : α → α → Bool)
    (htot : ∀ a b, le a b = true ∨ le b a = true)
    (htrans : ∀ a b c, le a b = true → le b c = true → le a c = true)
    (x : α) (l : List α)
    (h : l.Pairwise fun a b => le a b = true) :
    (insertLe le x l).Pairwise fun a b => le a b = true := by
  induction l with
  | nil => simp [insertLe]
  | cons y ys ih =>
    rw [insertLe]
    rw [List.pairwise_cons] at h
    obtain ⟨hy, hys⟩ := h
    by_cases hxy : le x y = true
    · simp only [hxy, if_true]
      refine List.Pairwise.cons ?_ (List.Pairwise.cons hy hys)
      intro b hb
      rcases List.mem_cons.mp hb with rfl | hb
      · exact hxy
      · exact htrans x y b hxy (hy b hb)
    · simp only [hxy, if_false]
      refine List.Pairwise.cons ?_ (ih hys)
      intro b hb
      rcases (mem_insertLe le x ys b).mp hb with hbx | hb
      · rw [hbx]
        rcases htot x y with hxy' | hyx
        · exact absurd hxy' hxy
        · exact hyx
      · exact hy b hb

theorem sortLe_pairwise (le : α → α → Bool)
    (htot : ∀ a b, le a b = true ∨ le b a = true)
    (htrans : ∀ a b c, le a b = true → le b c = true → le a c = true)
    (l : List α) :
    (sortLe le l).Pairwise fun a b => le a b = true := by
  induction l with
  | nil => simp [sortLe]
  | cons x xs ih => exact pairwise_insertLe le htot htrans x (sortLe le xs) ih

/-! ### The Overlap Resolver: `highlight(string, substrings, styling_method, ignore_case)`

`highlight` hands each element of `substrings` to `re3.finditer` without
escaping, so an element is a regex pattern, and the call can raise: an
element that does not compile (such as `"("`) raises `regex.error` inside
`finditer`, and an element with a zero-width match at position 0 (such as
the empty string, which zero-width-matches everywhere) records the range
token `"0--1"`, which `boltons.parse_int_list` splits into `["0", "", "1"]`
and crashes with `ValueError` on `int("")`.  The pattern fragment embedded
here is: a nonempty sequence of literal characters and `.` wildcards, where
a literal matches itself, `.` matches any character except a newline (the
call passes no `DOTALL` flag), and `re3.IGNORECASE` compares characters
case-insensitively.  `highlight` returns `none` for an argument outside
that fragment: exactly (for the empty element) or conservatively (for
elements carrying regex syntax that is not embedded, such as `"("`, which
does raise) the inputs on which the program raises instead of returning. -/

/-- One pattern character against one text character: `.` is the wildcard
and matches anything but a newline (no `DOTALL` here); the pattern is NOT
escaped by `highlight`. -/
def reCharMatches (ic : Bool) (p c : Char) : Bool :=
  (p = '.' && !(c = '\n')) || p = c || (ic && p.toLower = c.toLower)

/-- The pattern `part` matches the slice of `text` starting at index `i`
(as `re3.finditer(part, string, overlapped=True)` reports a match there). -/
def matchesAt (ic : Bool) (part text : Str) (i : ℕ) : Bool :=
  decide (i + part.length ≤ text.length) &&
    ((part.zip (text.drop i)).all fun pc => reCharMatches ic pc.1 pc.2)

/-- All match start positions of `part` in `text`, in ascending order
(`overlapped=True`: every position is reported, including overlapping ones). -/
def matchStarts (ic : Bool) (part text : Str) : List ℕ :=
  (List.range (text.length + 1)).filter fun i => matchesAt ic part text i

/-- Index `k` of the string is flagged for highlighting: some occurrence of
some substring covers it.  A match at `i` of length `L` is recorded by the
code as the inclusive character range `[i, i + L - 1]`, i.e. it covers
exactly the indices `i ≤ k < i + L`. -/
def isHighlightedIdx (ic : Bool) (text : Str) (parts : List Str) (k : ℕ) : Bool :=
  parts.any fun part =>
    (List.range (text.length + 1)).any fun i =>
      matchesAt ic part text i && decide (i ≤ k) && decide (k < i + part.length)

/-- Maximal runs of consecutive integers below `n` satisfying `p`, as
inclusive `(start, stop)` pairs, most recent run first.  This is what the
`int_ranges_from_int_list`/`format_int_list` round-trip computes from the
set of flagged indices (boltons first sorts and de-duplicates, then groups
maximal consecutive runs). -/
def pushRun (n : ℕ) : List (ℕ × ℕ) → List (ℕ × ℕ)
  | (i, j) :: rest => if j + 1 = n then (i, n) :: rest else (n, n) :: (i, j) :: rest
  | [] => [(n, n)]

def runsRevAux (p : ℕ → Bool) : ℕ → List (ℕ × ℕ)
  | 0 => []
  | n + 1 => if p n then pushRun n (runsRevAux p n) else runsRevAux p n

/-- Maximal runs of consecutive integers below `n` satisfying `p`, in
ascending order. -/
def runsOf (p : ℕ → Bool) (n : ℕ) : List (ℕ × ℕ) :=
  (runsRevAux p n).reverse

/-- The `highlight_ranges`: the maximal disjoint inclusive ranges of flagged
characters (`int_ranges_from_int_list` applied to the recorded ranges). -/
def highlight_ranges (ic : Bool) (text : Str) (parts : List Str) : List (ℕ × ℕ) :=
  runsOf (fun k => isHighlightedIdx ic text parts k) text.length

/-- The `untouched_ranges`: the maximal disjoint inclusive ranges of unflagged
characters (`complement_int_list(ranges, range_end=len(string))`). -/
def untouched_ranges (ic : Bool) (text : Str) (parts : List Str) : List (ℕ × ℕ) :=
  runsOf (fun k => !isHighlightedIdx ic text parts k) text.length

/-- Python's `sorted` on pairs of integers: lexicographic order. -/
def pairLe (a b : ℕ × ℕ) : Bool :=
  decide (a.1 < b.1) || (decide (a.1 = b.1) && decide (a.2 ≤ b.2))

/-- The range walk of `highlight`: walk the sorted highlighted and
untouched ranges, slice the original string, and apply `styling_method` to
the highlighted slices. -/
def highlight_core (string : Str) (substrings : List Str)
    (styling_method : Str → Str) (ignore_case : Bool := false) : Str :=
  let hr := highlight_ranges ignore_case string substrings
  let ur := untouched_ranges ignore_case string substrings
  (sortLe pairLe (hr ++ ur)).foldl
    (fun acc r =>
      let segment := (string.drop r.1).take (r.2 + 1 - r.1)
      acc ++ (if r ∈ hr then styling_method segment else segment))
    []

/-- Regex metacharacters (conservatively including the always-literal
unmatched closing brackets): a substring containing one of these, other
than the embedded `.` wildcard, carries pattern syntax this embedding does
not interpret. -/
def isRegexMeta (c : Char) : Bool :=
  c = '\\' || c = '^' || c = '$' || c = '.' || c = '|' || c = '?' || c = '*' ||
    c = '+' || c = '(' || c = ')' || c = '[' || c = ']' ||
    c = '\x7b' || c = '\x7d'

/-- The substring lies in the embedded pattern fragment: only literal
characters and `.` wildcards. -/
def patternInFragment (part : Str) : Bool :=
  part.all fun c => c = '.' || !isRegexMeta c

/-- The function `highlight(string, substrings, styling_method, ignore_case)`
from `colorize.py`.  `none` models a raised exception or an unembedded
pattern: an empty substring zero-width-matches at position 0 and the range
token `"0--1"` crashes boltons' `parse_int_list` with `ValueError` (within
the fragment, the empty substring is the only zero-width pattern); a
substring outside the literal-and-wildcard fragment may raise
`regex.error` at compile time (for example `"("`), so the model declines
to interpret it.  Otherwise the styled reassembly is returned. -/
def highlight (string : Str) (substrings : List Str)
    (styling_method : Str → Str) (ignore_case : Bool := false) : Option Str :=
  if substrings.all patternInFragment then
    if substrings.any (fun part => part.isEmpty) then none
    else some (highlight_core string substrings styling_method ignore_case)
  else none

/-! #### Invariants of the range computation -/

theorem runsRevAux_spec (p : ℕ → Bool) (n : ℕ) :
    (∀ r ∈ runsRevAux p n,
      r.1 ≤ r.2 ∧ r.2 < n ∧ ∀ k, r.1 ≤ k → k ≤ r.2 → p k = true) ∧
    (∀ k, k < n → p k = true → ∃ r ∈ runsRevAux p n, r.1 ≤ k ∧ k ≤ r.2) ∧
    (runsRevAux p n).Pairwise fun r s => s.2 < r.1 := by
  induction n with
  | zero => simp [runsRevAux]
  | succ n ih =>
    obtain ⟨ha, hb, hc⟩ := ih
    by_cases hp : p n = true
    · rw [runsRevAux, if_pos hp]
      cases hL : runsRevAux p n with
      | nil =>
        rw [pushRun]
        refine ⟨?_, ?_, by simp⟩
        · intro r hr
          rcases List.mem_singleton.mp hr with rfl
          exact ⟨le_refl n, Nat.lt_succ_self n, fun k h1 h2 => by
            have : k = n := le_antisymm h2 h1
            rwa [this]⟩
        · intro k hk hpk
          rcases Nat.lt_succ_iff_lt_or_eq.mp hk with hk' | heq
          · exact absurd (hb k hk' hpk) (by simp [hL])
          · exact ⟨(n, n), List.mem_singleton.mpr rfl, by omega, by omega⟩
      | cons hd rest =>
        obtain ⟨i, j⟩ := hd
        have hhead := ha (i, j) (by rw [hL]; exact List.mem_cons_self _ _)
        rw [hL] at ha hb
        rw [hL] at hc
        rw [pushRun]
        by_cases hj : j + 1 = n
        · rw [if_pos hj]
          refine ⟨?_, ?_, ?_⟩
          · intro r hr
            rcases List.mem_cons.mp hr with rfl | hr
            · refine ⟨by omega, by omega, fun k h1 h2 => ?_⟩
              rcases le_or_lt k j with hkj | hkj
              · exact hhead.2.2 k h1 hkj
              · have : k = n := by omega
                rwa [this]
            · have := ha r (List.mem_cons_of_mem _ hr)
              exact ⟨this.1, by omega, this.2.2⟩
          · intro k hk hpk
            rcases Nat.lt_succ_iff_lt_or_eq.mp hk with hk' | heq
            · obtain ⟨r, hrm, hr1, hr2⟩ := hb k hk' hpk
              rcases List.mem_cons.mp hrm with heq' | hrm
              · refine ⟨(i, n), List.mem_cons_self _ _, ?_, by omega⟩
                rw [heq'] at hr1
                exact hr1
              · exact ⟨r, List.mem_cons_of_mem _ hrm, hr1, hr2⟩
            · exact ⟨(i, n), List.mem_cons_self _ _, by omega, by omega⟩
          · rw [List.pairwise_cons] at hc ⊢
            exact ⟨fun s hs => hc.1 s hs, hc.2⟩
        · rw [if_neg hj]
          refine ⟨?_, ?_, ?_⟩
          · intro r hr
            rcases List.mem_cons.mp hr with rfl | hr
            · exact ⟨le_refl n, Nat.lt_succ_self n, fun k h1 h2 => by
                have : k = n := le_antisymm h2 h1
                rwa [this]⟩
            · have := ha r hr
              exact ⟨this.1, by omega, this.2.2⟩
          · intro k hk hpk
            rcases Nat.lt_succ_iff_lt_or_eq.mp hk with hk' | heq
            · obtain ⟨r, hrm, hr1, hr2⟩ := hb k hk' hpk
              exact ⟨r, List.mem_cons_of_mem _ hrm, hr1, hr2⟩
            · exact ⟨(n, n), List.mem_cons_self _ _, by omega, by omega⟩
          · rw [List.pairwise_cons]
            refine ⟨fun s hs => ?_, hc⟩
            exact (ha s hs).2.1
    · have hp' : p n = false := by
        cases hpn : p n
        · rfl
        · exact absurd hpn hp
      rw [runsRevAux, if_neg hp]
      refine ⟨?_, ?_, hc⟩
      · intro r hr
        have := ha r hr
        exact ⟨this.1, by omega, this.2.2⟩
      · intro k hk hpk
        rcases Nat.lt_succ_iff_lt_or_eq.mp hk with hk' | heq
        · exact hb k hk' hpk
        · rw [heq] at hpk
          exact absurd hpk (by simp [hp'])

theorem runsOf_bounds (p : ℕ → Bool) (n : ℕ) :
    ∀ r ∈ runsOf p n, r.1 ≤ r.2 ∧ r.2 < n ∧ ∀ k, r.1 ≤ k → k ≤ r.2 → p k = true := by
  intro r hr
  exact (runsRevAux_spec p n).1 r (List.mem_reverse.mp hr)

theorem runsOf_cover (p : ℕ → Bool) (n : ℕ) :
    ∀ k, k < n → p k = true → ∃ r ∈ runsOf p n, r.1 ≤ k ∧ k ≤ r.2 := by
  intro k hk hpk
  obtain ⟨r, hrm, h1, h2⟩ := (runsRevAux_spec p n).2.1 k hk hpk
  exact ⟨r, List.mem_reverse.mpr hrm, h1, h2⟩

theorem runsOf_pairwise (p : ℕ → Bool) (n : ℕ) :
    (runsOf p n).Pairwise fun r s => r.2 < s.1 := by
  rw [runsOf, List.pairwise_reverse]
  exact (runsRevAux_spec p n).2.2

/-! #### Small generic list lemmas used to reassemble the slices -/

theorem pairwise_and_of (l : List α) {R S : α → α → Prop}
    (h1 : l.Pairwise R) (h2 : l.Pairwise S) :
    l.Pairwise fun a b => R a b ∧ S a b := by
  induction l with
  | nil => exact List.Pairwise.nil
  | cons x xs ih =>
    rw [List.pairwise_cons] at h1 h2 ⊢
    exact ⟨fun b hb => ⟨h1.1 b hb, h2.1 b hb⟩, ih h1.2 h2.2⟩

theorem pairwise_imp_mem (l : List α) {R S : α → α → Prop}
    (h : ∀ a b, a ∈ l → b ∈ l → R a b → S a b) (hp : l.Pairwise R) :
    l.Pairwise S := by
  induction l with
  | nil => exact List.Pairwise.nil
  | cons x xs ih =>
    rw [List.pairwise_cons] at hp ⊢
    refine ⟨fun b hb => h x b (List.mem_cons_self _ _) (List.mem_cons_of_mem _ hb) (hp.1 b hb),
      ih (fun a b ha hb => h a b (List.mem_cons_of_mem _ ha) (List.mem_cons_of_mem _ hb)) hp.2⟩

theorem foldl_append_eq (f : α → Str) (l : List α) (acc : Str) :
    l.foldl (fun acc r => acc ++ f r) acc = acc ++ (l.map f).flatten := by
  induction l generalizing acc with
  | nil => simp
  | cons x xs ih => simp [ih, List.append_assoc]

/-- Reassembly: if a list of inclusive ranges is sorted, disjoint and covers
exactly the indices `[a, text.length)`, then concatenating the corresponding
slices of `text` yields `text.drop a`. -/
theorem join_slices (text : Str) (L : List (ℕ × ℕ)) (a : ℕ)
    (h1 : ∀ r ∈ L, r.1 ≤ r.2 ∧ r.2 < text.length)
    (h2 : L.Pairwise fun r s => r.2 < s.1)
    (h3 : ∀ k, (a ≤ k ∧ k < text.length) ↔ ∃ r ∈ L, r.1 ≤ k ∧ k ≤ r.2) :
    (L.map fun r => (text.drop r.1).take (r.2 + 1 - r.1)).flatten = text.drop a := by
  induction L generalizing a with
  | nil =>
    have hna : text.length ≤ a := by
      by_contra hlt
      exact absurd ((h3 a).mp ⟨le_refl a, by omega⟩) (by simp)
    simp [List.drop_eq_nil_of_le hna]
  | cons hd rest ih =>
    obtain ⟨i, j⟩ := hd
    have hij : i ≤ j ∧ j < text.length := h1 (i, j) (List.mem_cons_self _ _)
    have hicov : a ≤ i ∧ i < text.length :=
      (h3 i).mpr ⟨(i, j), List.mem_cons_self _ _, le_refl i, hij.1⟩
    rw [List.pairwise_cons] at h2
    have hia : i = a := by
      have hle : i ≤ a := by
        obtain ⟨r, hrm, hr1, hr2⟩ := (h3 a).mp ⟨le_refl a, by omega⟩
        rcases List.mem_cons.mp hrm with heq | hrm
        · rw [heq] at hr1
          exact hr1
        · have := h2.1 r hrm
          omega
      omega
    have hrest : ∀ k, (j + 1 ≤ k ∧ k < text.length) ↔ ∃ r ∈ rest, r.1 ≤ k ∧ k ≤ r.2 := by
      intro k
      constructor
      · intro hk
        obtain ⟨r, hrm, hr1, hr2⟩ := (h3 k).mp ⟨by omega, hk.2⟩
        rcases List.mem_cons.mp hrm with heq | hrm
        · rw [heq] at hr2
          omega
        · exact ⟨r, hrm, hr1, hr2⟩
      · intro ⟨r, hrm, hr1, hr2⟩
        have hcov := (h3 k).mpr ⟨r, List.mem_cons_of_mem _ hrm, hr1, hr2⟩
        have := h2.1 r hrm
        exact ⟨by omega, hcov.2⟩
    have ihr := ih (j + 1) (fun r hr => h1 r (List.mem_cons_of_mem _ hr)) h2.2 hrest
    rw [List.map_cons, List.flatten_cons, ihr]
    have hsplit : text.drop a =
        (text.drop i).take (j + 1 - i) ++ text.drop (j + 1) := by
      rw [← hia]
      conv_lhs => rw [← List.take_append_drop (j + 1 - i) (text.drop i)]
      congr 1
      rw [List.drop_drop]
      congr 1
      omega
    rw [hsplit]

theorem pairLe_total : ∀ a b : ℕ × ℕ, pairLe a b = true ∨ pairLe b a = true := by
  intro a b
  simp only [pairLe, Bool.or_eq_true, Bool.and_eq_true, decide_eq_true_eq]
  omega

theorem pairLe_trans : ∀ a b c : ℕ × ℕ,
    pairLe a b = true → pairLe b c = true → pairLe a c = true := by
  intro a b c
  simp only [pairLe, Bool.or_eq_true, Bool.and_eq_true, decide_eq_true_eq]
  omega

/-- Bounds of the combined range list: every range is well-formed and stays
inside the string. -/
theorem ranges_bounds (ic : Bool) (text : Str) (parts : List Str) :
    ∀ r ∈ highlight_ranges ic text parts ++ untouched_ranges ic text parts,
      r.1 ≤ r.2 ∧ r.2 < text.length := by
  intro r hr
  rcases List.mem_append.mp hr with h | h
  · have := runsOf_bounds _ _ r h
    exact ⟨this.1, this.2.1⟩
  · have := runsOf_bounds _ _ r h
    exact ⟨this.1, this.2.1⟩

/-- Coverage: the combined ranges cover exactly the character indices of the
string. -/
theorem ranges_cover (ic : Bool) (text : Str) (parts : List Str) :
    ∀ k, k < text.length ↔
      ∃ r ∈ highlight_ranges ic text parts ++ untouched_ranges ic text parts,
        r.1 ≤ k ∧ k ≤ r.2 := by
  intro k
  constructor
  · intro hk
    by_cases hpk : isHighlightedIdx ic text parts k = true
    · obtain ⟨r, hrm, h1, h2⟩ :=
        runsOf_cover (fun k => isHighlightedIdx ic text parts k) text.length k hk hpk
      exact ⟨r, List.mem_append_left _ hrm, h1, h2⟩
    · have hpk0 : isHighlightedIdx ic text parts k = false := by
        cases h : isHighlightedIdx ic text parts k
        · rfl
        · exact absurd h hpk
      have hpk' : (fun k => !isHighlightedIdx ic text parts k) k = true := by
        simp [hpk0]
      obtain ⟨r, hrm, h1, h2⟩ :=
        runsOf_cover (fun k => !isHighlightedIdx ic text parts k) text.length k hk hpk'
      exact ⟨r, List.mem_append_right _ hrm, h1, h2⟩
  · intro ⟨r, hrm, h1, h2⟩
    have := ranges_bounds ic text parts r hrm
    omega

/-- Disjointness: no character index belongs to two of the combined ranges. -/
theorem ranges_disjoint (ic : Bool) (text : Str) (parts : List Str) :
    (highlight_ranges ic text parts ++ untouched_ranges ic text parts).Pairwise
      fun r s => r.2 < s.1 ∨ s.2 < r.1 := by
  rw [List.pairwise_append]
  refine ⟨(runsOf_pairwise _ _).imp fun h => Or.inl h,
    (runsOf_pairwise _ _).imp fun h => Or.inl h, ?_⟩
  intro a ha b hb
  have hA := runsOf_bounds _ _ a ha
  have hB := runsOf_bounds _ _ b hb
  by_contra hcon
  push_neg at hcon
  have hk : a.1 ≤ max a.1 b.1 ∧ max a.1 b.1 ≤ a.2 ∧
      b.1 ≤ max a.1 b.1 ∧ max a.1 b.1 ≤ b.2 := by omega
  have hp := hA.2.2 (max a.1 b.1) hk.1 hk.2.1
  have hq := hB.2.2 (max a.1 b.1) hk.2.2.1 hk.2.2.2
  rw [hp] at hq
  exact Bool.noConfusion hq

/-- Reassembly with the identity styling: the range walk emits every
character of the original string exactly once, in order. -/
theorem highlight_core_id (ic : Bool) (text : Str) (parts : List Str) :
    highlight_core text parts (fun s => s) ic = text := by
  set hr := highlight_ranges ic text parts with hhr
  set ur := untouched_ranges ic text parts with hur
  set walk := sortLe pairLe (hr ++ ur) with hwalk
  have hperm := sortLe_perm pairLe (hr ++ ur)
  have hbounds : ∀ r ∈ walk, r.1 ≤ r.2 ∧ r.2 < text.length := fun r hrm =>
    ranges_bounds ic text parts r (hperm.mem_iff.mp hrm)
  have hdis : walk.Pairwise fun r s => r.2 < s.1 ∨ s.2 < r.1 :=
    List.Pairwise.perm (ranges_disjoint ic text parts) hperm.symm
      (fun {x y} h => Or.symm h)
  have hsorted := sortLe_pairwise pairLe pairLe_total pairLe_trans (hr ++ ur)
  have hchain : walk.Pairwise fun r s => r.2 < s.1 := by
    refine pairwise_imp_mem walk (fun a b ha hb h => ?_) (pairwise_and_of walk hsorted hdis)
    have hA := hbounds a ha
    have hB := hbounds b hb
    obtain ⟨hle, hd⟩ := h
    simp only [pairLe, Bool.or_eq_true, Bool.and_eq_true, decide_eq_true_eq] at hle
    omega
  have hcov : ∀ k, (0 ≤ k ∧ k < text.length) ↔ ∃ r ∈ walk, r.1 ≤ k ∧ k ≤ r.2 := by
    intro k
    constructor
    · intro hk
      obtain ⟨r, hrm, h1, h2⟩ := (ranges_cover ic text parts k).mp hk.2
      exact ⟨r, hperm.mem_iff.mpr hrm, h1, h2⟩
    · intro ⟨r, hrm, h1, h2⟩
      have := hbounds r hrm
      exact ⟨Nat.zero_le k, by omega⟩
  have hjoin := join_slices text walk 0 hbounds hchain hcov
  have hfold : ∀ (l : List (ℕ × ℕ)) (acc : Str),
      l.foldl (fun acc r =>
        let segment := (text.drop r.1).take (r.2 + 1 - r.1)
        acc ++ (if r ∈ hr then (fun s : Str => s) segment else segment)) acc =
      acc ++ (l.map fun r => (text.drop r.1).take (r.2 + 1 - r.1)).flatten := by
    intro l
    induction l with
    | nil => simp
    | cons x xs ih =>
      intro acc
      simp only [List.foldl_cons, List.map_cons, List.flatten_cons]
      rw [ih]
      simp [List.append_assoc]
  rw [highlight_core]
  rw [hfold walk []]
  rw [List.nil_append, hjoin, List.drop_zero]

/-- Literal (escaped) occurrence of `part` at position `i` of `text`: every
character compared for plain equality, with the whole pattern in bounds. -/
def literalOccursAt (part text : Str) (i : ℕ) : Bool :=
  decide (i + part.length ≤ text.length) && ((text.drop i).take part.length = part)

/-- C1 counterexample: `highlight` does not return for every substring set.
With the substring set `{""}` the empty pattern zero-width-matches at
position 0 and boltons' `parse_int_list` raises `ValueError` on the token
`"0--1"`; with `{"("}` the pattern does not compile and `re3.finditer`
raises `regex.error`.  In both cases no output is produced, so the
concatenation of emitted slices does not reproduce the original string. -/
theorem C1_overlap_resolver_crash_counterexample :
    highlight "ab".toList ["".toList] (fun s => s) false = none ∧
    ¬ (highlight "ab".toList ["".toList] (fun s => s) false =
        some "ab".toList) ∧
    highlight "ab".toList ["(".toList] (fun s => s) false = none := by
  refine ⟨by decide, ?_, by decide⟩
  have h : highlight "ab".toList ["".toList] (fun s => s) false = none := by
    decide
  rw [h]
  intro hc
  exact Option.noConfusion hc

/-- C1 (amended): for every input string and every set of substrings whose
elements all lie in the embedded literal-and-wildcard pattern fragment and
are nonempty (so the call raises neither `regex.error` nor the zero-width
`ValueError`), `highlight` returns normally, the computed ranges —
highlighted plus plain — are pairwise disjoint and jointly cover every
character index from `0` to `length - 1`, and the concatenation of all
emitted slices, ignoring the style markup added by the styling function
(i.e. with the identity styling function), reproduces the original string
exactly. -/
theorem C1_overlap_resolver_partition (ic : Bool) (text : Str) (parts : List Str)
    (hfrag : parts.all patternInFragment = true)
    (hne : parts.all (fun part => !part.isEmpty) = true) :
    (∀ r ∈ highlight_ranges ic text parts ++ untouched_ranges ic text parts,
        r.1 ≤ r.2 ∧ r.2 < text.length) ∧
    ((highlight_ranges ic text parts ++ untouched_ranges ic text parts).Pairwise
        fun r s => r.2 < s.1 ∨ s.2 < r.1) ∧
    (∀ k, k < text.length ↔
        ∃ r ∈ highlight_ranges ic text parts ++ untouched_ranges ic text parts,
          r.1 ≤ k ∧ k ≤ r.2) ∧
    highlight text parts (fun s => s) ic = some text := by
  refine ⟨ranges_bounds ic text parts, ranges_disjoint ic text parts,
    ranges_cover ic text parts, ?_⟩
  have hany : ¬ (parts.any (fun part => part.isEmpty) = true) := by
    intro hc
    obtain ⟨part, hmem, hemp⟩ := List.any_eq_true.mp hc
    have h1 := List.all_eq_true.mp hne part hmem
    rw [hemp] at h1
    exact Bool.noConfusion h1
  rw [highlight, if_pos hfrag, if_neg hany, highlight_core_id]

/-- Witness for the amended C1 at a concrete input: on `"ab"` with the
(nonempty, fragment) substring `"a"`, some range covers index 0, and the
identity-styled reassembly returns `"ab"`. -/
theorem C1_overlap_resolver_partition_witness :
    (∃ r ∈ highlight_ranges false "ab".toList ["a".toList] ++
        untouched_ranges false "ab".toList ["a".toList], r.1 ≤ 0 ∧ 0 ≤ r.2) ∧
    highlight "ab".toList ["a".toList] (fun s => s) false = some "ab".toList :=
  ⟨((C1_overlap_resolver_partition false "ab".toList ["a".toList]
      (by decide) (by decide)).2.2.1 0).mp (by decide),
   (C1_overlap_resolver_partition false "ab".toList ["a".toList]
      (by decide) (by decide)).2.2.2⟩

/-- C8: searching the repeated single-character pattern `"aa"` in `"aaaa"`
finds all three overlapping occurrences (match starts 0, 1 and 2); they
collapse into the single highlighted range `(0, 3)` spanning the whole
string, the complement is empty, and the styling function is applied exactly
once, to the entire string. -/
theorem C8_overlapping_matches :
    matchStarts false "aa".toList "aaaa".toList = [0, 1, 2] ∧
    highlight_ranges false "aaaa".toList ["aa".toList] = [(0, 3)] ∧
    untouched_ranges false "aaaa".toList ["aa".toList] = [] ∧
    ∀ styling_method : Str → Str,
      highlight "aaaa".toList ["aa".toList] styling_method =
        some (styling_method "aaaa".toList) := by
  refine ⟨by decide, by decide, by decide, fun f => ?_⟩
  show highlight "aaaa".toList ["aa".toList] f false =
    some (f "aaaa".toList)
  have hcore : highlight_core "aaaa".toList ["aa".toList] f false =
      f "aaaa".toList := by
    rw [highlight_core]
    rw [show highlight_ranges false "aaaa".toList ["aa".toList] = [(0, 3)] from by decide,
        show untouched_ranges false "aaaa".toList ["aa".toList] = [] from by decide]
    simp [sortLe, insertLe]
  rw [show highlight "aaaa".toList ["aa".toList] f false =
      some (highlight_core "aaaa".toList ["aa".toList] f false) from rfl, hcore]

/-- C10: `highlight` passes each substring to the regex engine without
escaping, so it is interpreted as a pattern, not a literal.  For the
substring `"."` against the text `"ab"` — which contains no literal dot —
there is no literal occurrence at any position, yet both characters are
flagged as highlighted and the whole string is styled. -/
theorem C10_regex_not_escaped :
    (∀ i, literalOccursAt ".".toList "ab".toList i = false) ∧
    isHighlightedIdx false "ab".toList [".".toList] 0 = true ∧
    isHighlightedIdx false "ab".toList [".".toList] 1 = true ∧
    highlight "ab".toList [".".toList] (fun s => '<' :: s ++ ['>']) =
      some "<ab>".toList := by
  refine ⟨fun i => ?_, by decide, by decide, by decide⟩
  match i with
  | 0 => decide
  | 1 => decide
  | 2 => decide
  | n + 3 =>
    simp only [literalOccursAt, Bool.and_eq_false_iff]
    left
    simp only [decide_eq_false_iff_not]
    intro h
    have h1 : (".".toList).length = 1 := by decide
    have h2 : ("ab".toList).length = 2 := by decide
    omega


/-! ### Color-Mode Resolver: `ColorOption.disable_colors`

The callback re-inspects the environment and decides the final color flag.
`ParameterSource` is click's provenance enumeration (external to this
repository).  Modelled from the spec: a config-file value reaches the option
through click's default map, so its provenance is `DEFAULT_MAP`, which is a
distinct source from the command's own default (`DEFAULT`); the callback
compares the provenance of `"color"` against `ParameterSource.DEFAULT` only. -/

inductive ParameterSource where
  | COMMANDLINE
  | ENVIRONMENT
  | DEFAULT
  | DEFAULT_MAP
  | PROMPT
deriving DecidableEq

/-- The table `color_env_vars`: recognized environment variables with the value to pass
to the `--color` flag when encountered (their polarity). -/
def color_env_vars : List (String × Bool) :=
  [("COLOR", true), ("COLORS", true), ("CLICOLOR", true), ("CLICOLORS", true),
   ("FORCE_COLOR", true), ("FORCE_COLORS", true), ("CLICOLOR_FORCE", true),
   ("CLICOLORS_FORCE", true),
   ("NOCOLOR", false), ("NOCOLORS", false), ("NO_COLOR", false),
   ("NO_COLORS", false)]

/-- Python's `str.lower()` (character-wise lowering; the recognized boolean
tokens are ASCII). -/
def strLower (v : String) : String := String.mk (v.toList.map Char.toLower)

/-- The table `RawConfigParser.BOOLEAN_STATES` from Python's standard library. -/
def BOOLEAN_STATES : List (String × Bool) :=
  [("1", true), ("yes", true), ("true", true), ("on", true),
   ("0", false), ("no", false), ("false", false), ("off", false)]

/-- The environment votes: for each recognized variable present in `env`,
normalize its string value to a boolean (case-insensitively, defaulting to
`true` when unparseable) and XOR with the negated boolean, as in
`colorize_from_env.add(default ^ (not var_boolean))`.  The Python code
collects the votes in a set; only membership of `true`/`false` is consumed,
so a list is an adequate embedding. -/
def colorize_from_env (env : List (String × String)) : List Bool :=
  color_env_vars.foldl
    (fun acc vp =>
      match env.lookup vp.1 with
      | some var_value =>
        let var_boolean := (BOOLEAN_STATES.lookup (strLower var_value)).getD true
        acc ++ [Bool.xor vp.2 (!var_boolean)]
      | none => acc)
    []

/-- The callback `ColorOption.disable_colors(ctx, param, value)`: the value stored into
`ctx.color`.  The environment can override the provided value only when the
parameter source of `"color"` equals `ParameterSource.DEFAULT`; one `true`
vote is then enough to activate colorization. -/
def disable_colors (env : List (String × String)) (source : ParameterSource)
    (value : Bool) : Bool :=
  let votes := colorize_from_env env
  if votes.isEmpty then value
  else if source = ParameterSource.DEFAULT then votes.contains true
  else value

/-- C3 (behaviour at the failing input): with `NO_COLOR=1` in the
environment and a default-true explicit value, the callback resolves to
`false` (disabled) when the provenance is the command's own default, but
keeps the explicit `true` when the provenance is the config-file default
map — the environment does NOT override a config-file value, although the
claim (and the code's own comment) say it should. -/
theorem C3_color_env_precedence_behavior :
    disable_colors [("NO_COLOR", "1")] ParameterSource.DEFAULT true = false ∧
    disable_colors [("NO_COLOR", "1")] ParameterSource.DEFAULT_MAP true = true := by
  constructor
  · decide
  · decide

/-- C4: when the explicit value's source is an actual command-line flag, the
resolved value equals the explicit value regardless of which recognized
environment variables are present or what they contain; in particular, an
explicit command-line `true` with `NO_COLOR=1` present resolves to enabled. -/
theorem C4_commandline_wins :
    (∀ (env : List (String × String)) (value : Bool),
        disable_colors env ParameterSource.COMMANDLINE value = value) ∧
    disable_colors [("NO_COLOR", "1")] ParameterSource.COMMANDLINE true = true := by
  refine ⟨fun env value => ?_, by decide⟩
  rw [disable_colors]
  split
  · rfl
  · rw [if_neg]
    intro h
    exact ParameterSource.noConfusion h

/-! ### Keyword Collector: the short/long option split
(`ExtraHelpColorsMixin.collect_keywords`, lines 353-365) -/

/-- The option spellings of one click parameter: primary and secondary
option declarations. -/
structure ParamSpec where
  opts : List Str
  secondary_opts : List Str

/-- The `options` set built by `collect_keywords`: the context's help option
names plus every parameter's primary and secondary spellings.  (The Python
set is embedded as a list; only membership is consumed.) -/
def collect_options (help_option_names : List Str) (params : List ParamSpec) :
    List Str :=
  help_option_names ++
    params.foldl (fun acc p => acc ++ p.opts ++ p.secondary_opts) []

/-- The split loop: spellings of length at most 2 go to `short_options`,
anything else to `long_options`.  Returns `(long_options, short_options)`. -/
def splitShortLong : List Str → List Str × List Str
  | [] => ([], [])
  | o :: rest =>
    let lr := splitShortLong rest
    if o.length ≤ 2 then (lr.1, o :: lr.2) else (o :: lr.1, lr.2)

theorem mem_splitShortLong (l : List Str) (o : Str) :
    (o ∈ (splitShortLong l).2 ↔ o ∈ l ∧ o.length ≤ 2) ∧
    (o ∈ (splitShortLong l).1 ↔ o ∈ l ∧ 2 < o.length) := by
  induction l with
  | nil => simp [splitShortLong]
  | cons x xs ih =>
    rw [splitShortLong]
    by_cases hx : x.length ≤ 2
    · simp only [hx, if_true, List.mem_cons]
      constructor
      · rw [ih.1]
        constructor
        · rintro (rfl | ⟨ho, hlen⟩)
          · exact ⟨Or.inl rfl, hx⟩
          · exact ⟨Or.inr ho, hlen⟩
        · rintro ⟨rfl | ho, hlen⟩
          · exact Or.inl rfl
          · exact Or.inr ⟨ho, hlen⟩
      · rw [ih.2]
        constructor
        · rintro ⟨ho, hlen⟩
          exact ⟨Or.inr ho, hlen⟩
        · rintro ⟨rfl | ho, hlen⟩
          · omega
          · exact ⟨ho, hlen⟩
    · simp only [hx, if_false, List.mem_cons]
      constructor
      · rw [ih.1]
        constructor
        · rintro ⟨ho, hlen⟩
          exact ⟨Or.inr ho, hlen⟩
        · rintro ⟨rfl | ho, hlen⟩
          · omega
          · exact ⟨ho, hlen⟩
      · rw [ih.2]
        constructor
        · rintro (rfl | ⟨ho, hlen⟩)
          · exact ⟨Or.inl rfl, by omega⟩
          · exact ⟨Or.inr ho, hlen⟩
        · rintro ⟨rfl | ho, hlen⟩
          · exact Or.inl rfl
          · exact Or.inr ⟨ho, hlen⟩

/-- C9: an option spelling collected by the keyword collector (help option
names, primary opts, secondary opts) lands in the short-options set if and
only if its length is at most 2 characters, and in the long-options set
otherwise (if and only if its length exceeds 2). -/
theorem C9_option_length_split (help_option_names : List Str)
    (params : List ParamSpec) (o : Str) :
    (o ∈ (splitShortLong (collect_options help_option_names params)).2 ↔
      o ∈ collect_options help_option_names params ∧ o.length ≤ 2) ∧
    (o ∈ (splitShortLong (collect_options help_option_names params)).1 ↔
      o ∈ collect_options help_option_names params ∧ 2 < o.length) :=
  mem_splitShortLong (collect_options help_option_names params) o


/-! ### Highlight Engine: `HelpExtraFormatter.highlight_extra_keywords`

Each `re.sub` pass is embedded as a left-to-right scanner (`reSub`) driven by
a matcher that recognizes the pass's pattern at the head of the remaining
text and reports the match as a list of capture groups, each an optional
group id together with the length of the captured slice (the groups of every
pattern are consecutive and cover the whole match).  `colorize` then rebuilds
the matched string from the groups, styling the named ones. -/

/-- Python's `\s` over the character set exercised by help screens. -/
def isBlank (c : Char) : Bool :=
  c = ' ' || c = '\t' || c = '\n' || c = '\r' || c = '\x0b' || c = '\x0c'

/-- Python's `\w`: alphanumeric or underscore. -/
def isWordChar (c : Char) : Bool :=
  c.isAlphanum || c = '_'

/-- The left context accepted before a keyword: blank, `[`, `|` or `(`. -/
def leftCtx (c : Char) : Bool :=
  isBlank c || c = '[' || c = '|' || c = '('

/-- Length of the maximal blank run at the head of the text. -/
def wsRun : Str → ℕ
  | c :: rest => if isBlank c then wsRun rest + 1 else 0
  | [] => 0

/-- Matching under `escape_for_help_sceen` escaping: the keyword is matched literally
(`re.escape`), except that every dash may be followed by any number of blank
characters (the escaped keyword replaces `-` by `-\s*`).  The pattern is then
followed by a mandatory non-word character (`(\W)`), so the trailing `\s*`
backtracks greedily.  Returns the length of the keyword capture (excluding
the terminator character, whose presence is required). -/
def matchKwTerm : Str → Str → Option ℕ
  | [], t =>
    match t with
    | c :: _ => if isWordChar c then none else some 0
    | [] => none
  | p :: kw, t =>
    match t with
    | c :: rest =>
      if p = '-' then
        if c = '-' then
          ((List.range (wsRun rest + 1)).reverse).findSome? fun k =>
            (matchKwTerm kw (rest.drop k)).map fun n => 1 + k + n
        else none
      else if c = p then (matchKwTerm kw rest).map fun n => n + 1
      else none
    | [] => none

/-- Literal occurrence of `pat` at the head of `t` (an `re.escape`d literal). -/
def litAt (pat t : Str) : Bool :=
  t.take pat.length = pat

/-- Case-insensitive literal occurrence of `pat` at the head of `t`
(`re.IGNORECASE`). -/
def startsWithCI (pat t : Str) : Bool :=
  decide (pat.length ≤ t.length) &&
    ((pat.zip t).all fun pc => pc.1.toLower = pc.2.toLower)

/-- Index of the last occurrence of `c` in `l`, if any. -/
def lastIdxOf (c : Char) (l : Str) : Option ℕ :=
  ((List.range l.length).filter fun i => l.get? i = some c).max?

/-- A capture-group plan: an optional group id and the length of the slice
captured by the group.  The groups of a match are consecutive slices of the
text starting at the match position. -/
abbrev SpecList := List (Option String × ℕ)

/-- Total number of characters consumed by the match. -/
def specLen (specs : SpecList) : ℕ :=
  (specs.map Prod.snd).sum

/-- One capture group of a regex match: its group id (`none` for an unnamed
group) and the text it captured. -/
structure MGroup where
  gid : Option String
  txt : Str

/-- Realize a capture-group plan over the text `t` from offset `off`. -/
def mkGroups (t : Str) (off : ℕ) : SpecList → List MGroup
  | [] => []
  | (g, n) :: rest => ⟨g, (t.drop off).take n⟩ :: mkGroups t (off + n) rest

/-- Concatenation of all captured texts. -/
def groupsText (gs : List MGroup) : Str :=
  (gs.map MGroup.txt).flatten

/-- The method `HelpExtraFormatter.colorize(match)`: invert the named-group dictionary
(`{v: k for k, v in match.groupdict().items()}`), assert that no two named
groups captured the same text (`none` on failure, modelling the
`AssertionError`), then rebuild the match by concatenating all groups,
styling every group whose text coincides with a named group's text. -/
def colorize (style : String → Str → Str) (gs : List MGroup) : Option Str :=
  let named := gs.filterMap fun g => g.gid.map fun n => (n, g.txt)
  if (named.map Prod.snd).Nodup then
    some (gs.foldl
      (fun acc g =>
        match named.find? fun nt => nt.2 == g.txt with
        | some nt => acc ++ style nt.1 g.txt
        | none => acc ++ g.txt)
      [])
  else none

/-- The scanner of `re.sub(pattern, colorize, text)`: scan left to right; at each position
try the pass's matcher; on a match, emit `colorize` of the groups and resume
after the match (the replacement is not rescanned); otherwise emit the
character and move on.  `fuel` bounds the scan (every pass calls it with
`text.length`, and every matcher consumes at least one character).  A `none`
result models the `AssertionError` raised by `colorize`. -/
def reSub (style : String → Str → Str) (specsOf : Str → Option SpecList) :
    ℕ → Str → Option Str
  | 0, t => some t
  | _ + 1, [] => some []
  | fuel + 1, c :: rest =>
    match specsOf (c :: rest) with
    | some specs =>
      match colorize style (mkGroups (c :: rest) 0 specs) with
      | some repl =>
        (reSub style specsOf fuel ((c :: rest).drop (specLen specs))).map
          fun out => repl ++ out
      | none => none
    | none => (reSub style specsOf fuel rest).map fun out => c :: out

/-- Run one `re.sub` pass over the whole text. -/
def runPass (style : String → Str → Str) (specsOf : Str → Option SpecList)
    (t : Str) : Option Str :=
  reSub style specsOf t.length t

/-- The marker `"(DEPRECATED)"`, matched case-insensitively. -/
def deprStr : Str := "(DEPRECATED)".toList

/-- Pass 1 matcher: `(\s)(?P<warning>\(DEPRECATED\))` with `re.IGNORECASE`:
a blank character, then the deprecation marker. -/
def deprecatedSpecs (t : Str) : Option SpecList :=
  match t with
  | c :: rest =>
    if isBlank c && startsWithCI deprStr rest then
      some [(none, 1), (some "warning", deprStr.length)]
    else none
  | [] => none

/-- Greedy choice of the alias position inside the parenthesized tail: the
largest start `k` such that the (escaped, literal) alias occurs at `k` and a
closing parenthesis follows it (the last `)` of the line is at `lp`). -/
def greedyAliasPos (al line : Str) (lp : ℕ) : Option ℕ :=
  ((List.range (lp + 1)).filter fun k =>
    decide (k + al.length ≤ lp) && litAt al (line.drop k)).max?

/-- Pass 2 matcher (per alias):
`(\ \ \S+\ \((.*))(?P<command_aliases>alias)((.*)\))` —
two spaces, a maximal nonempty run of non-blank characters, one space, an
opening parenthesis, then (within the line, since `.` does not match
newlines) the alias, greedily as far right as possible, and a closing
parenthesis, greedily the last of the line. -/
def aliasSpecs (al : Str) (t : Str) : Option SpecList :=
  match t with
  | ' ' :: ' ' :: rest =>
    let sub := rest.takeWhile fun c => !isBlank c
    if sub.isEmpty then none
    else
      match rest.drop sub.length with
      | ' ' :: '(' :: r2 =>
        let line := r2.takeWhile fun c => c ≠ '\n'
        match lastIdxOf ')' line with
        | some lp =>
          match greedyAliasPos al line lp with
          | some k =>
            some [(none, 2 + sub.length + 2 + k),
                  (some "command_aliases", al.length),
                  (none, lp + 1 - (k + al.length))]
          | none => none
        | none => none
      | _ => none
  | _ => none

/-- Pass 3 matcher (per subcommand): `(\ \ )(?P<subcommand>sub)(\s)` — a
two-space section indent, the literal subcommand, one blank character. -/
def subcommandSpecs (sub : Str) (t : Str) : Option SpecList :=
  match t with
  | ' ' :: ' ' :: rest =>
    if litAt sub rest then
      match rest.drop sub.length with
      | c2 :: _ =>
        if isBlank c2 then
          some [(none, 2), (some "subcommand", sub.length), (none, 1)]
        else none
      | [] => none
    else none
  | _ => none

/-- The label `"[default:"`, the literal head of the defaults annotation. -/
def defaultLabel : Str := "[default:".toList

/-- Pass 4 matcher:
`(\ \ )(?P<default_start>\[default:\s+)(?P<default_value>.+?)(?P<default_end>\])`
with `re.DOTALL`.  After the label, `\s+` greedily takes the whole blank
run of length `w`; the lazy `.+?` (at least one character, `.` matching
newlines under `DOTALL`) then extends one character at a time until `\]`
matches, i.e. up to the first `]` strictly after the value start — the
value itself may begin with a `]` when one sits right after the blank run
and another follows later.  Only when no `]` exists strictly after the run
does the greedy `\s+` backtrack one blank, making the value that single
blank character with the adjacent `]` closing; with one blank no
backtracking is possible and the match fails. -/
def defaultsSpecs (t : Str) : Option SpecList :=
  match t with
  | ' ' :: ' ' :: rest =>
    if litAt defaultLabel rest then
      let r2 := rest.drop defaultLabel.length
      let w := wsRun r2
      if 1 ≤ w then
        match (r2.drop (w + 1)).findIdx? fun c => c = ']' with
        | some d =>
          some [(none, 2), (some "default_start", defaultLabel.length + w),
                (some "default_value", 1 + d), (some "default_end", 1)]
        | none =>
          if 2 ≤ w ∧ r2.get? w = some ']' then
            some [(none, 2),
                  (some "default_start", defaultLabel.length + (w - 1)),
                  (some "default_value", 1), (some "default_end", 1)]
          else none
      else none
    else none
  | _ => none

/-- Pass 5 matcher (per CLI name): `(\s)(?P<invoked_command>name)(\s)` — a
blank, the literal command path, a blank. -/
def cliNameSpecs (name : Str) (t : Str) : Option SpecList :=
  match t with
  | c :: rest =>
    if isBlank c && litAt name rest then
      match rest.drop name.length with
      | c2 :: _ =>
        if isBlank c2 then
          some [(none, 1), (some "invoked_command", name.length), (none, 1)]
        else none
      | [] => none
    else none
  | [] => none

/-- Pass 6 matcher (per keyword, for the group id of its category):
`([\s\[\|\(])(?P<gid>escaped-keyword)(\W)` — a left-context character, the
escaped keyword (dashes tolerate trailing blanks), a non-word character. -/
def keywordSpecs (gid : String) (kw : Str) (t : Str) : Option SpecList :=
  match t with
  | c :: rest =>
    if leftCtx c then
      match matchKwTerm kw rest with
      | some n => some [(none, 1), (some gid, n), (none, 1)]
      | none => none
    else none
  | [] => none


/-! ### Theme and pipeline -/

/-- The `HelpExtraTheme`: a fixed set of named styling roles, each a function
`string -> string`, every one defaulting to the identity.  `nocolor_theme =
HelpExtraTheme()` keeps every default. -/
structure HelpExtraTheme where
  invoked_command : Str → Str := fun s => s
  command_help : Str → Str := fun s => s
  heading : Str → Str := fun s => s
  constraint : Str → Str := fun s => s
  section_help : Str → Str := fun s => s
  col1 : Str → Str := fun s => s
  col2 : Str → Str := fun s => s
  epilog : Str → Str := fun s => s
  critical : Str → Str := fun s => s
  error : Str → Str := fun s => s
  warning : Str → Str := fun s => s
  info : Str → Str := fun s => s
  debug : Str → Str := fun s => s
  subheading : Str → Str := fun s => s
  option : Str → Str := fun s => s
  choice : Str → Str := fun s => s
  metavar : Str → Str := fun s => s
  search : Str → Str := fun s => s
  success : Str → Str := fun s => s

/-- The no-color theme: every role is the identity. -/
def nocolor_theme : HelpExtraTheme := {}

/-- The method `HelpExtraFormatter.style_group`: resolve a capture-group id to a theme
role, first by attribute name (`getattr(self.theme, group_id, None)`), then
through the `style_alias` table.  An id outside this table would raise a
`KeyError` in Python; the engine only produces the listed ids, so the
catch-all identity is unreachable from the passes below. -/
def style_group (th : HelpExtraTheme) : String → Str → Str
  | "warning" => th.warning
  | "invoked_command" => th.invoked_command
  | "choice" => th.choice
  | "metavar" => th.metavar
  | "default_start" => th.metavar
  | "default_end" => th.metavar
  | "default_value" => th.choice
  | "subcommand" => th.option
  | "command_aliases" => th.option
  | "long_option" => th.option
  | "short_option" => th.option
  | _ => fun s => s

/-- Python string comparison: lexicographic by code point. -/
def strLe : Str → Str → Bool
  | [], _ => true
  | _ :: _, [] => false
  | x :: xs, y :: ys => if x = y then strLe xs ys else decide (x < y)

/-- Python's `sorted(keywords)`. -/
def pySort (l : List Str) : List Str :=
  sortLe strLe l

/-- Python's `sorted(keywords, reverse=True)`. -/
def pySortRev (l : List Str) : List Str :=
  sortLe (fun a b => strLe b a) l

/-- The extra keyword sets fed to the formatter (Python sets, embedded as
lists; the engine sorts the four keyword categories before use). -/
structure KeywordSets where
  cli_names : List Str := []
  subcommands : List Str := []
  command_aliases : List Str := []
  long_options : List Str := []
  short_options : List Str := []
  choices : List Str := []
  metavars : List Str := []

/-- The four keyword-category passes, in source order: long options sorted
in REVERSE lexicographic order, short options sorted in ASCENDING
lexicographic order (the code has no `reverse=True` there), choices and
metavars in reverse order; paired with the capture-group id used to style
their matches. -/
def keyword_pass_list (kw : KeywordSets) : List (List Str × String) :=
  [(pySortRev kw.long_options, "long_option"),
   (pySort kw.short_options, "short_option"),
   (pySortRev kw.choices, "choice"),
   (pySortRev kw.metavars, "metavar")]

/-- The keyword stage of `highlight_extra_keywords`: fold the four category
passes over the text, each category folding one `re.sub` pass per keyword. -/
def keywordStage (th : HelpExtraTheme) (kw : KeywordSets) (t : Str) :
    Option Str :=
  (keyword_pass_list kw).foldlM
    (fun t' cat =>
      cat.1.foldlM
        (fun t'' k => runPass (style_group th) (keywordSpecs cat.2 k) t'')
        t')
    t

/-- The method `HelpExtraFormatter.highlight_extra_keywords(help_text)`: the ordered
pass sequence — deprecation marker, command aliases, subcommands, default
values, CLI names, then the four keyword categories.  A `none` propagates a
failed `colorize` assertion. -/
def highlight_extra_keywords (th : HelpExtraTheme) (kw : KeywordSets)
    (help_text : Str) : Option Str :=
  (runPass (style_group th) deprecatedSpecs help_text).bind fun t1 =>
  (kw.command_aliases.foldlM
    (fun t al => runPass (style_group th) (aliasSpecs al) t) t1).bind fun t2 =>
  (kw.subcommands.foldlM
    (fun t sub => runPass (style_group th) (subcommandSpecs sub) t) t2).bind fun t3 =>
  (runPass (style_group th) defaultsSpecs t3).bind fun t4 =>
  (kw.cli_names.foldlM
    (fun t name => runPass (style_group th) (cliNameSpecs name) t) t4).bind fun t5 =>
  keywordStage th kw t5


/-! ### C2: the no-op theme and byte-identity -/

theorem style_group_nocolor : ∀ (g : String) (s : Str),
    style_group nocolor_theme g s = s := by
  intro g s
  unfold style_group
  split <;> rfl

theorem groupsText_mkGroups (t : Str) (specs : SpecList) :
    ∀ off, groupsText (mkGroups t off specs) = (t.drop off).take (specLen specs) := by
  induction specs with
  | nil => intro off; simp [mkGroups, groupsText, specLen]
  | cons gn rest ih =>
    intro off
    obtain ⟨g, n⟩ := gn
    have hlen : specLen ((g, n) :: rest) = n + specLen rest := by
      simp [specLen]
    rw [hlen, mkGroups]
    rw [groupsText, List.map_cons, List.flatten_cons]
    rw [show (List.map MGroup.txt (mkGroups t (off + n) rest)).flatten =
        groupsText (mkGroups t (off + n) rest) from rfl]
    rw [ih (off + n)]
    rw [List.take_add]
    congr 1
    rw [List.drop_drop]

theorem colorize_id (style : String → Str → Str)
    (hstyle : ∀ g s', style g s' = s') (gs : List MGroup) (r : Str)
    (h : colorize style gs = some r) : r = groupsText gs := by
  rw [colorize] at h
  split at h
  · have hfold : ∀ (l : List MGroup) (acc : Str),
        l.foldl
          (fun acc g =>
            match (gs.filterMap fun g => g.gid.map fun n => (n, g.txt)).find?
                (fun nt => nt.2 == g.txt) with
            | some nt => acc ++ style nt.1 g.txt
            | none => acc ++ g.txt)
          acc = acc ++ groupsText l := by
      intro l
      induction l with
      | nil => intro acc; simp [groupsText]
      | cons g' l' ih =>
        intro acc
        rw [List.foldl_cons, ih]
        cases hfind : (gs.filterMap fun g => g.gid.map fun n => (n, g.txt)).find?
            (fun nt => nt.2 == g'.txt) with
        | none => simp [groupsText]
        | some nt => simp [hstyle, groupsText]
    rw [Option.some_inj] at h
    rw [← h]
    exact (hfold gs []).trans (List.nil_append _)
  · exact Option.noConfusion h

theorem reSub_id (style : String → Str → Str) (specsOf : Str → Option SpecList)
    (hstyle : ∀ g s', style g s' = s') :
    ∀ (fuel : ℕ) (t out : Str), reSub style specsOf fuel t = some out → out = t := by
  intro fuel
  induction fuel with
  | zero =>
    intro t out h
    rw [reSub] at h
    exact (Option.some_inj.mp h).symm
  | succ fuel ih =>
    intro t out h
    match t with
    | [] =>
      rw [reSub] at h
      exact (Option.some_inj.mp h).symm
    | c :: rest =>
      rw [reSub] at h
      split at h
      case h_1 specs hs =>
        split at h
        case h_1 repl hc =>
          rw [Option.map_eq_some'] at h
          obtain ⟨o', ho', rfl⟩ := h
          have hrepl := colorize_id style hstyle _ _ hc
          rw [groupsText_mkGroups _ _ 0, List.drop_zero] at hrepl
          rw [hrepl, ih _ _ ho']
          exact List.take_append_drop _ _
        case h_2 => exact Option.noConfusion h
      case h_2 =>
        rw [Option.map_eq_some'] at h
        obtain ⟨o', ho', rfl⟩ := h
        rw [ih _ _ ho']

theorem runPass_id (style : String → Str → Str) (specsOf : Str → Option SpecList)
    (hstyle : ∀ g s', style g s' = s') (t out : Str)
    (h : runPass style specsOf t = some out) : out = t :=
  reSub_id style specsOf hstyle t.length t out h

theorem foldlM_id {α : Type} (f : Str → α → Option Str)
    (hf : ∀ t x out, f t x = some out → out = t) :
    ∀ (l : List α) (t out : Str), List.foldlM f t l = some out → out = t := by
  intro l
  induction l with
  | nil =>
    intro t out h
    rw [List.foldlM] at h
    exact (Option.some_inj.mp h).symm
  | cons x xs ih =>
    intro t out h
    rw [List.foldlM_cons] at h
    cases hfx : f t x with
    | none =>
      rw [hfx] at h
      exact Option.noConfusion h
    | some t' =>
      rw [hfx] at h
      rw [← hf t x t' hfx]
      exact ih t' out h


theorem keywordStage_id (kw : KeywordSets) (t out : Str)
    (h : keywordStage nocolor_theme kw t = some out) : out = t := by
  rw [keywordStage] at h
  exact foldlM_id _
    (fun t' cat out' h' =>
      foldlM_id _
        (fun t'' k out'' h'' =>
          runPass_id _ _ style_group_nocolor _ _ h'')
        _ _ _ h')
    _ _ _ h

/-- C2 (amended): with the all-identity no-op theme, whenever the full
highlight-engine pass sequence completes (i.e. no pass's `colorize` hits its
named-group distinctness assertion), the output is byte-identical to the
input text, for every combination of keyword sets. -/
theorem C2_nocolor_identity_amended (kw : KeywordSets) (text out : Str)
    (h : highlight_extra_keywords nocolor_theme kw text = some out) :
    out = text := by
  simp only [highlight_extra_keywords, Option.bind_eq_some'] at h
  obtain ⟨t1, h1, t2, h2, t3, h3, t4, h4, t5, h5, h6⟩ := h
  have e1 := runPass_id _ _ style_group_nocolor _ _ h1
  have e2 := foldlM_id _
    (fun t x out h => runPass_id _ _ style_group_nocolor _ _ h) _ _ _ h2
  have e3 := foldlM_id _
    (fun t x out h => runPass_id _ _ style_group_nocolor _ _ h) _ _ _ h3
  have e4 := runPass_id _ _ style_group_nocolor _ _ h4
  have e5 := foldlM_id _
    (fun t x out h => runPass_id _ _ style_group_nocolor _ _ h) _ _ _ h5
  have e6 := keywordStage_id kw _ _ h6
  rw [e6, e5, e4, e3, e2, e1]

/-- Witness for the amended C2 at a concrete input: on `"hello"` with empty
keyword sets the pipeline completes and returns the input unchanged. -/
theorem C2_nocolor_identity_amended_witness :
    ∃ out, highlight_extra_keywords nocolor_theme {} "hello".toList = some out ∧
      out = "hello".toList := by
  have h : highlight_extra_keywords nocolor_theme {} "hello".toList =
      some "hello".toList := by decide
  exact ⟨"hello".toList, h, C2_nocolor_identity_amended {} "hello".toList "hello".toList h⟩

/-- C2 counterexample: on the help text `"  [default: [default: ]"` (with
empty keyword sets) the defaults pass captures `default_start` and
`default_value` as the same text `"[default: "`, `colorize`'s group-
inversion assertion fails, and the engine raises instead of returning the
input byte-identically. -/
theorem C2_nocolor_identity_counterexample :
    highlight_extra_keywords nocolor_theme {}
      "  [default: [default: ]".toList = none ∧
    ¬ (highlight_extra_keywords nocolor_theme {}
        "  [default: [default: ]".toList =
      some "  [default: [default: ]".toList) := by
  have h : highlight_extra_keywords nocolor_theme {}
      "  [default: [default: ]".toList = none := by decide
  refine ⟨h, ?_⟩
  rw [h]
  intro hc
  exact Option.noConfusion hc


/-! ### C5, C6, C7: keyword pass order and concrete highlighting behaviour -/

/-- A theme whose option, choice and metavar roles are distinct visible
markers (`O...o`, `C...c`, `M...m`); all other roles stay identity. -/
def markTheme : HelpExtraTheme :=
  { option := fun s => 'O' :: s ++ ['o'],
    choice := fun s => 'C' :: s ++ ['c'],
    metavar := fun s => 'M' :: s ++ ['m'] }

/-- The keyword stage as claim C5 states it: for each of long-options,
short-options, choices, metavars, in that order, iterate the keywords
sorted in REVERSE lexicographic order (all four categories) and rewrite the
context-bounded occurrences with the category's role. -/
def keywordStage_claimed (th : HelpExtraTheme) (kw : KeywordSets) (t : Str) :
    Option Str :=
  ((pySortRev kw.long_options).foldlM
      (fun a k => runPass (style_group th) (keywordSpecs "long_option" k) a)
      t).bind fun t1 =>
  ((pySortRev kw.short_options).foldlM
      (fun a k => runPass (style_group th) (keywordSpecs "short_option" k) a)
      t1).bind fun t2 =>
  ((pySortRev kw.choices).foldlM
      (fun a k => runPass (style_group th) (keywordSpecs "choice" k) a)
      t2).bind fun t3 =>
  (pySortRev kw.metavars).foldlM
      (fun a k => runPass (style_group th) (keywordSpecs "metavar" k) a) t3

/-- The keyword stage restated category by category as the code actually
has it: identical to the claimed version except that the SHORT options are
iterated in ASCENDING lexicographic order. -/
def keywordStage_asc_shorts (th : HelpExtraTheme) (kw : KeywordSets) (t : Str) :
    Option Str :=
  ((pySortRev kw.long_options).foldlM
      (fun a k => runPass (style_group th) (keywordSpecs "long_option" k) a)
      t).bind fun t1 =>
  ((pySort kw.short_options).foldlM
      (fun a k => runPass (style_group th) (keywordSpecs "short_option" k) a)
      t1).bind fun t2 =>
  ((pySortRev kw.choices).foldlM
      (fun a k => runPass (style_group th) (keywordSpecs "choice" k) a)
      t2).bind fun t3 =>
  (pySortRev kw.metavars).foldlM
      (fun a k => runPass (style_group th) (keywordSpecs "metavar" k) a) t3

/-- Short-option keyword set exhibiting the sort-direction difference. -/
def kwC5 : KeywordSets :=
  { short_options := ["-".toList, "-a".toList] }

/-- C5 counterexample: the engine's keyword stage does NOT equal the
claimed all-reverse-sorted stage: with short options `{"-", "-a"}` on the
text `" - a "`, the code (ascending shorts) lets `"-"` match first and
produces `" O-o a "`, while the claimed reverse order lets `"-a"` match
(absorbing the blank after the dash) and produces `" O- ao "`. -/
theorem C5_keyword_order_counterexample :
    keywordStage markTheme kwC5 " - a ".toList ≠
      keywordStage_claimed markTheme kwC5 " - a ".toList ∧
    keywordStage markTheme kwC5 " - a ".toList = some " O-o a ".toList ∧
    keywordStage_claimed markTheme kwC5 " - a ".toList =
      some " O- ao ".toList := by
  refine ⟨?_, by decide, by decide⟩
  intro h
  have h1 : keywordStage markTheme kwC5 " - a ".toList =
      some " O-o a ".toList := by decide
  have h2 : keywordStage_claimed markTheme kwC5 " - a ".toList =
      some " O- ao ".toList := by decide
  rw [h1, h2] at h
  exact absurd h (by decide)

/-- C5 (amended): the keyword passes process the four categories in the
order long-options, short-options, choices, metavars; long-options, choices
and metavars iterate in reverse lexicographic order, while SHORT options
iterate in ascending lexicographic order; each pass rewrites occurrences
bounded by a left context of whitespace, `[`, `|` or `(` and a right
context of any non-word character. -/
theorem C5_keyword_order_amended (th : HelpExtraTheme) (kw : KeywordSets)
    (t : Str) :
    keywordStage th kw t = keywordStage_asc_shorts th kw t := by
  rw [keywordStage, keyword_pass_list, keywordStage_asc_shorts]
  simp only [List.foldlM_cons, List.foldlM_nil, Option.bind_eq_bind,
    Option.pure_def, Option.bind_some]

/-- Literal occurrence of `kw` somewhere in `t` with the pass's required
contexts: preceded by a character from the left-context class and followed
by a non-word character. -/
def occursWithCtx (kw t : Str) : Bool :=
  (List.range (t.length + 1)).any fun i =>
    match t.drop i with
    | c :: rest =>
      leftCtx c && litAt kw rest &&
        (match rest.drop kw.length with
         | c2 :: _ => !isWordChar c2
         | [] => false)
    | [] => false

/-- Long-option keyword set with the prefix pair of claim C6. -/
def kwC6 : KeywordSets :=
  { long_options := ["--verbose".toList, "--verbose-all".toList] }

/-- C6 counterexample: in `" --verbose-all --verbose-all "` both
`--verbose` and `--verbose-all` occur with the required contexts, yet the
output renders the second occurrence as a styled `--verbose` followed by a
plain `-all` (`O--verboseo-all`): the first match consumes the separating
blank, so the second `--verbose-all` occurrence has no left-context
character left and is later matched by the shorter `--verbose`. -/
theorem C6_verbose_all_counterexample :
    occursWithCtx "--verbose-all".toList
      " --verbose-all --verbose-all ".toList = true ∧
    occursWithCtx "--verbose".toList
      " --verbose-all --verbose-all ".toList = true ∧
    highlight_extra_keywords markTheme kwC6
      " --verbose-all --verbose-all ".toList =
      some " O--verbose-allo O--verboseo-all ".toList ∧
    List.IsInfix "O--verboseo-all".toList
      " O--verbose-allo O--verboseo-all ".toList := by
  refine ⟨by decide, by decide, by decide, by decide⟩

/-- C6 (amended): when no occurrence's left-context character has been
consumed as the right context of an earlier match of the same pass — in
particular for a single occurrence of `--verbose-all` with the required
contexts — `--verbose-all` is styled as one single unit and never as a
styled `--verbose` followed by a plain `-all`. -/
theorem C6_verbose_all_amended :
    highlight_extra_keywords markTheme kwC6 " --verbose-all ".toList =
      some " O--verbose-allo ".toList ∧
    List.IsInfix "O--verbose-allo".toList " O--verbose-allo ".toList ∧
    ¬ List.IsInfix "O--verboseo".toList " O--verbose-allo ".toList := by
  refine ⟨by decide, by decide, by decide⟩

/-- C7 counterexample: the help text
`"  [default: x  [default: 3]"` contains the annotation `"  [default: 3]"`
(preceded by two spaces), but the DOTALL defaults pass matches at the first
`"  [default:"` and swallows the annotation into the default value, so the
value `3` is never wrapped by the choice marker. -/
theorem C7_default_value_counterexample :
    List.IsInfix "  [default: 3]".toList
      "  [default: x  [default: 3]".toList ∧
    highlight_extra_keywords markTheme {}
      "  [default: x  [default: 3]".toList =
      some "  M[default: mCx  [default: 3cM]m".toList ∧
    ¬ List.IsInfix "C3c".toList
      "  M[default: mCx  [default: 3cM]m".toList := by
  refine ⟨by decide, by decide, by decide⟩

/-- C7 (amended): for a help text in which the annotation `"  [default: 3]"`
is the leftmost defaults-pass match (here, the annotation itself), rendering
with distinct metavar/choice markers wraps the opening fragment
`"[default: "` and the closing bracket `"]"` in the metavar marker and the
value `"3"` in the choice marker. -/
theorem C7_default_value_amended :
    highlight_extra_keywords markTheme {} "  [default: 3]".toList =
      some "  M[default: mC3cM]m".toList ∧
    List.IsInfix "M[default: m".toList "  M[default: mC3cM]m".toList ∧
    List.IsInfix "C3c".toList "  M[default: mC3cM]m".toList ∧
    List.IsInfix "M]m".toList "  M[default: mC3cM]m".toList := by
  refine ⟨by decide, by decide, by decide, by decide⟩

end ClickExtra
